import Mathlib

/-!
Verification of the course recommendation pipeline
(`src/ai/gating.py`, `src/ai/pipeline.py`, `src/ai/ranker.py`,
`src/recommender.py`).

The Python code is shallowly embedded: catalog rows become the `Course`
structure, pandas/FAISS retrieval results are passed in as explicit lists,
floats become `ℚ`, and the regex-based keyword matching of `gating.py` is
modelled as an executable position-by-position matcher.  Python's `\w`
class and `str.lower` are modelled on their ASCII fragment, which covers
all keywords and catalog text the gating logic distinguishes.
-/

namespace CourseRec

/-- Python `str.lower()` (ASCII fragment), as a character-wise map. -/
def lowerStr (s : String) : String := String.mk (s.data.map Char.toLower)

/-- Python `str.split()` with no arguments: whitespace-separated tokens,
empty tokens dropped.  Queries reaching the gating code are already
whitespace-collapsed, so splitting on a single blank is faithful. -/
def pySplit (s : String) : List String :=
  ((s.data.splitOn ' ').filter (fun t => !t.isEmpty)).map String.mk

/-- Python regex `\w` (word character), ASCII fragment: alphanumeric or
underscore. -/
def wordChar (c : Char) : Bool := c.isAlphanum || c == '_'

/-- Python substring containment `needle in hay` on strings. -/
def containsSub (needle hay : String) : Bool :=
  let n := needle.data
  let h := hay.data
  (List.range (h.length + 1)).any (fun i => ((h.drop i).take n.length) == n)

/-- One candidate position of `gating.check_match`'s regex search:
the (lowercased) keyword occurs at position `i` of the (lowercased) text,
with the boundary assertions built in `check_match`:
a leading `\b` only when the keyword starts with a word character
(matches iff `i = 0` or the previous character is not a word character),
and a trailing `\b` (word-char ending) or `(?!\w)` (symbol ending) —
both of which assert that the next character is absent or not a word
character. -/
def matchAt (t k : List Char) (i : Nat) : Bool :=
  ((t.drop i).take k.length == k)
    && (match k.head? with
        | none => true
        | some c => if wordChar c then (i == 0) || !(wordChar (t.getD (i - 1) ' ')) else true)
    && (match k.getLast? with
        | none => true
        | some _ => (i + k.length == t.length) || !(wordChar (t.getD (i + k.length) ' ')))

/-- `gating.check_match(text, kw)`: case-insensitive boundary-aware
search of the keyword in the text (`re.search` with the pattern built in
`check_match`, `re.IGNORECASE`). -/
def check_match (text kw : String) : Bool :=
  let t := (lowerStr text).data
  let k := (lowerStr kw).data
  (List.range (t.length + 1)).any (fun i => matchAt t k i)

/-- `gating.STRICT_TECH_KEYWORDS` (a Python set; listed here in source
order). -/
def STRICT_TECH_KEYWORDS : List String :=
  ["python", "java", "c#", "c++", "javascript", "php", "ruby", "swift", "kotlin", "dart",
   "rust", "golang", "sql", "flutter", "react", "angular", "vue", "django", "flask",
   "spring", "laravel", ".net", "node", "express", "pandas", "tensorflow", "pytorch",
   "keras", "html", "css", "linux", "docker", "kubernetes", "aws", "azure", "gcp",
   "excel", "photoshop", "illustrator", "figma", "jira", "git", "marketing", "accounting",
   "finance", "sales", "hr", "management"]

/-- The stopword set local to `extract_strong_keywords_regex`. -/
def gatingStopwords : List String :=
  ["course", "learn", "tutorial", "basics", "advanced", "introduction",
   "guide", "complete", "bootcamp", "masterclass", "fundamentals",
   "beginner", "intermediate", "expert", "programming", "language"]

/-- `gating.extract_strong_keywords_regex(query)`: keep a token when its
lowercasing is a strict tech keyword, or it is not a stopword and has
length at least 2.  (The original token is kept, not its lowercasing; the
unused `is_short` parameter of the source is omitted.) -/
def extract_strong_keywords_regex (query : String) : List String :=
  (pySplit query).filter (fun t =>
    STRICT_TECH_KEYWORDS.contains (lowerStr t)
      || (!(gatingStopwords.contains (lowerStr t)) && decide (2 ≤ t.length)))

/-- A catalog row, as consumed by the gating/pipeline code (dictionary
produced by `courses_df.iloc[idx].to_dict()`; the cleaned dataset always
has these text columns).  `url` models `course.get('url', ...)`. -/
structure Course where
  title : String
  skills : String
  description : String
  category : String
  level : String
  url : String
deriving Repr, DecidableEq

/-- `check_gating` lowercases each field and blanks it when the lowered
text is the string `"nan"` (a stringified pandas NaN).  Since
`check_match` lowercases its text argument anyway, keeping the original
casing of a non-NaN field is observationally identical to the source's
pre-lowering. -/
def nanBlank (s : String) : String := if lowerStr s = "nan" then "" else s

/-- `gating.check_gating(course, score, normalized_query, original_query,
threshold, is_short_query)` — the unused `original_query` parameter is
omitted.  Returns `(is_valid, matched_keywords)`. -/
def check_gating (course : Course) (score : ℚ) (normalized_query : String)
    (threshold : ℚ) (is_short_query : Bool) : Bool × List String :=
  if score < threshold then (false, [])
  else
    let keywords := extract_strong_keywords_regex normalized_query
    let strict_targets := keywords.filter (fun k => STRICT_TECH_KEYWORDS.contains (lowerStr k))
    if keywords.isEmpty then (true, [])
    else
      let title := nanBlank course.title
      let skills := nanBlank course.skills
      let desc := nanBlank course.description
      let matched := keywords.filter (fun kw =>
        check_match title kw || check_match skills kw || check_match desc kw)
      if !strict_targets.isEmpty then
        let matched_strict := matched.filter (fun m => STRICT_TECH_KEYWORDS.contains m)
        if !matched_strict.isEmpty then (true, matched) else (false, [])
      else if is_short_query then
        (if !matched.isEmpty then (true, matched) else (false, []))
      else if !matched.isEmpty then (true, matched)
      else if mkRat 3 5 < score then (true, [])
      else (false, [])

/-! Pipeline data (`src/schemas.py` consumers in `src/ai/pipeline.py`).
The request's raw query only feeds the externally-defined normalizer
`normalize_query` and Arabic detection `is_arabic` (neither of which is
part of the pipeline sources), so the pipeline model receives the
normalized query and the Arabic flag as inputs instead. -/

structure Filters where
  level : Option String
  category : Option String
deriving Repr, DecidableEq

structure Request where
  topK : Nat
  filters : Option Filters
  enableReranking : Bool
deriving Repr, DecidableEq

/-- One gated retrieval candidate, as the dictionaries built in
`CourseRecommenderPipeline.recommend` (`src/ai/pipeline.py`). -/
structure Candidate where
  title : String
  url : String
  score : ℚ
  description : String
  skills : String
  category : String
  level : String
  matchedKeywords : List String
  why : List String
  rank : Option ℤ
deriving Repr, DecidableEq

/-- The identity of a candidate: every field that names which catalog
item it is, excluding the mutable presentation fields `score`, `why` and
`rank`. -/
def identOf (c : Candidate) : String × String × String × String × String × String × List String :=
  (c.title, c.url, c.description, c.skills, c.category, c.level, c.matchedKeywords)

/-- The level/category pre-filters of `filter_candidates`
(`src/ai/pipeline.py` lines 115-121): skip a course when a non-`"Any"`
filter value disagrees with the course field. -/
def skipByFilters (flt : Option Filters) (c : Course) : Bool :=
  match flt with
  | none => false
  | some f =>
    (match f.level with
     | some l => (l != "Any") && (c.level != l)
     | none => false)
    || (match f.category with
        | some g => (g != "Any") && (c.category != g)
        | none => false)

/-- The `why` list attached in the semantic path of `filter_candidates`. -/
def mkWhy (score : ℚ) : List String :=
  [if score < mkRat 2 5 then "Keyword Matching" else "Semantic Match"]

/-- `filter_candidates(threshold_val)` (`src/ai/pipeline.py` lines
107-144): walk the FAISS hits `(idx, score)` in retrieval order, skip the
`-1` padding, apply the pre-filters, gate with `check_gating`, and build
the candidate dictionaries.  FAISS only emits `-1` or valid row indices,
so an out-of-range index (which `iloc` would reject) is skipped. -/
def filter_candidates (courses : List Course) (hits : List (Int × ℚ)) (flt : Option Filters)
    (normQuery : String) (isShort : Bool) (threshold : ℚ) : List Candidate :=
  hits.filterMap (fun h =>
    if h.1 == -1 then none
    else match courses[h.1.toNat]? with
      | none => none
      | some course =>
        if skipByFilters flt course then none
        else
          let g := check_gating course h.2 normQuery threshold isShort
          if g.1 then
            some { title := course.title, url := course.url, score := h.2,
                   description := course.description, skills := course.skills,
                   category := course.category, level := course.level,
                   matchedKeywords := g.2, why := mkWhy h.2, rank := none }
          else none)

/-- `self.global_corpus_text`: all titles, skills and descriptions joined
with blanks then lowercased (`src/ai/pipeline.py` lines 25-31). -/
def global_corpus_text (courses : List Course) : String :=
  lowerStr (String.intercalate " "
    (courses.map Course.title ++ courses.map Course.skills ++ courses.map Course.description))

/-- The critical keywords of the global existence check: strong keywords
of the normalized query whose lowercasing is a strict tech keyword
(`src/ai/pipeline.py` lines 48-53). -/
def critical_keywords (normQuery : String) : List String :=
  (extract_strong_keywords_regex normQuery).filter
    (fun k => STRICT_TECH_KEYWORDS.contains (lowerStr k))

/-- The first critical keyword that is not a substring of the global
corpus text, if any — the keyword whose absence blocks the query
(`src/ai/pipeline.py` lines 55-83). -/
def firstMissingCritical (courses : List Course) (normQuery : String) : Option String :=
  (critical_keywords normQuery).find?
    (fun kw => !(containsSub (lowerStr kw) (global_corpus_text courses)))

/-- `settings.SEMANTIC_THRESHOLD_ARABIC = 0.25` (`src/config.py`). -/
def SEMANTIC_THRESHOLD_ARABIC : ℚ := mkRat 1 4

/-- `settings.SEMANTIC_THRESHOLD_GENERAL = 0.35` (`src/config.py`). -/
def SEMANTIC_THRESHOLD_GENERAL : ℚ := mkRat 7 20

/-- `settings.SEMANTIC_THRESHOLD_RELAXED = 0.22` (`src/config.py`). -/
def SEMANTIC_THRESHOLD_RELAXED : ℚ := mkRat 11 50

/-- `settings.TOP_K_Candidates = 100` (`src/config.py`). -/
def TOP_K_Candidates : Nat := 100

/-- The short-query flag: `len(norm_query.split()) <= 2`. -/
def isShortOf (normQuery : String) : Bool := decide ((pySplit normQuery).length ≤ 2)

/-- The semantic-path candidate gathering (`src/ai/pipeline.py` lines
146-149): filter at the primary threshold; when fewer than 3 survive and
the query is not short, refilter at the relaxed threshold.  The boolean
records whether the relaxed pass ran. -/
def gatherSemantic (courses : List Course) (hits : List (Int × ℚ)) (flt : Option Filters)
    (normQuery : String) (isShort : Bool) (threshold : ℚ) : Bool × List Candidate :=
  let primary := filter_candidates courses hits flt normQuery isShort threshold
  if primary.length < 3 && !isShort then
    (true, filter_candidates courses hits flt normQuery isShort SEMANTIC_THRESHOLD_RELAXED)
  else (false, primary)

/-- One step of the keyword fallback loop (`src/ai/pipeline.py` lines
157-179): gate with a dummy score `1.0` at threshold `0.0` and keep the
course only when it is valid with a non-empty matched-keyword list; the
kept candidate gets the constant score `0.5`. -/
def fallbackCandidate (normQuery : String) (isShort : Bool) (course : Course) :
    Option Candidate :=
  let g := check_gating course 1 normQuery 0 isShort
  if g.1 && !g.2.isEmpty then
    some { title := course.title, url := course.url, score := mkRat 1 2,
           description := course.description, skills := course.skills,
           category := course.category, level := course.level,
           matchedKeywords := g.2,
           why := ["Keyword Match: " ++ String.intercalate ", " (g.2.take 2)],
           rank := none }
  else none

/-- The keyword fallback path (`src/ai/pipeline.py` lines 151-182):
walk the catalog in row order and stop once `TOP_K_Candidates` candidates
are collected (the `break` after the append). -/
def fallbackCandidates (courses : List Course) (normQuery : String) (isShort : Bool) :
    List Candidate :=
  (courses.filterMap (fallbackCandidate normQuery isShort)).take TOP_K_Candidates

/-- Score update of one reranked candidate (`src/ai/pipeline.py` lines
199-201): the reranker score replaces the similarity score and a
reranker note is pushed onto `why`. -/
def setRerankScore (c : Candidate) (s : ℚ) : Candidate :=
  { c with score := s, why := ("Reranker: " ++ toString s) :: c.why }

/-- Stable insert for descending order by key `f` — the element being
inserted precedes every element whose key is not larger. -/
def insertDescBy (f : α → ℚ) (c : α) : List α → List α
  | [] => [c]
  | x :: xs => if f x ≤ f c then c :: x :: xs else x :: insertDescBy f c xs

/-- Stable descending sort by key `f`; models Python's stable
`list.sort(key=..., reverse=True)`: equal keys keep their original
relative order. -/
def sortDescBy (f : α → ℚ) : List α → List α
  | [] => []
  | x :: xs => insertDescBy f x (sortDescBy f xs)

/-- The optional reranking step (`src/ai/pipeline.py` lines 191-204),
with the reranker already applied to the query: the first 20 candidates
get their scores replaced by the reranker scores (positionally) and are
re-sorted descending by the new score; the tail is appended untouched.
`EmbeddingService.rerank` always returns one score per title, so the
positional update is the `zipWith` part. -/
def rerankStep (rerank : List String → List ℚ) (cands : List Candidate) : List Candidate :=
  let top := cands.take 20
  let tl := cands.drop 20
  let scores := rerank (top.map Candidate.title)
  let updated := (List.zipWith setRerankScore top scores) ++ top.drop scores.length
  sortDescBy Candidate.score updated ++ tl

/-- `EmbeddingService.rerank` when the reranker model failed to load
(`src/ai/embeddings.py` lines 65-68): `np.zeros(len(candidates))`. -/
def zeroRerank : String → List String → List ℚ := fun _ ts => ts.map (fun _ => 0)

/-- Python `min` over a nonempty list of rationals (0 for `[]`, unused). -/
def listMin : List ℚ → ℚ
  | [] => 0
  | [x] => x
  | x :: y :: t => min x (listMin (y :: t))

/-- Python `max` over a nonempty list of rationals (0 for `[]`, unused). -/
def listMax : List ℚ → ℚ
  | [] => 0
  | [x] => x
  | x :: y :: t => max x (listMax (y :: t))

/-- Python `int(q)` on a float: truncation toward zero. -/
def pyInt (q : ℚ) : ℤ := if q < 0 then ⌈q⌉ else ⌊q⌋

/-- Python `round(q)` on a float: round half to even. -/
def pyRound (q : ℚ) : ℤ :=
  if q - ⌊q⌋ < 1/2 then ⌊q⌋
  else if (1 : ℚ)/2 < q - ⌊q⌋ then ⌊q⌋ + 1
  else if Even ⌊q⌋ then ⌊q⌋ else ⌊q⌋ + 1

/-- The per-item rank of `ranker.normalize_rank_1_10`: 5 when all scores
coincide, otherwise `int(normalized * 9) + 1` for
`normalized = (score - min) / (max - min)`. -/
def rankFor (minS maxS s : ℚ) : ℤ :=
  if maxS = minS then 5 else pyInt (((s - minS) / (maxS - minS)) * 9) + 1

/-- `ranker.normalize_rank_1_10(results)` (`src/ai/ranker.py`): attach a
1-10 integer rank to every candidate, leaving everything else unchanged
(the source mutates the dictionaries in place and returns the list). -/
def normalize_rank_1_10 (results : List Candidate) : List Candidate :=
  if results.isEmpty then results
  else
    let scores := results.map Candidate.score
    let minS := listMin scores
    let maxS := listMax scores
    results.map (fun r => { r with rank := some (rankFor minS maxS r.score) })

/-- The response assembled by `CourseRecommenderPipeline.recommend`
(`src/ai/pipeline.py`); only the fields the claims mention are kept.
Results are represented by the final candidates (the `Recommendation`
constructor copies their fields verbatim). -/
structure RecommendOutput where
  results : List Candidate
  totalFound : Nat
  blockedReason : Option String
deriving Repr, DecidableEq

/-- `CourseRecommenderPipeline.recommend` (`src/ai/pipeline.py` lines
33-238) for a loaded index.  External collaborators are inputs: `hits`
are the FAISS `(index, score)` pairs for the encoded normalized query,
`canEncode` is `EmbeddingService.can_encode`, `rerank` is
`EmbeddingService.rerank`, `normQuery` is `normalize_query(request.query)`
and `isAr` is `is_arabic(request.query)`.

The duplicated relaxation block at lines 184-189 references the plain
name `SEMANTIC_THRESHOLD_RELAXED`, which is not defined in the module
namespace of `src/ai/pipeline.py` (only `settings` is imported); when the
block's guard fires the call raises `NameError` (semantic path) or
`UnboundLocalError` on `filter_candidates` (fallback path).  This is
modelled as the `Except.error` branch. -/
def recommend (courses : List Course) (hits : List (Int × ℚ)) (canEncode : Bool)
    (rerank : String → List String → List ℚ) (req : Request)
    (normQuery : String) (isAr : Bool) : Except String RecommendOutput :=
  match firstMissingCritical courses normQuery with
  | some kw =>
    .ok { results := [], totalFound := 0,
          blockedReason := some ("Topic " ++ kw ++ " not found in database.") }
  | none =>
    let isShort := isShortOf normQuery
    let threshold := if isAr then SEMANTIC_THRESHOLD_ARABIC else SEMANTIC_THRESHOLD_GENERAL
    let cands :=
      if canEncode then (gatherSemantic courses hits req.filters normQuery isShort threshold).2
      else fallbackCandidates courses normQuery isShort
    if cands.length < 3 && !isShort then
      .error "NameError at src/ai/pipeline.py line 189"
    else
      let cands2 :=
        if req.enableReranking && decide (1 < cands.length)
        then rerankStep (rerank normQuery) cands else cands
      let finalR := normalize_rank_1_10 (cands2.take req.topK)
      .ok { results := finalR, totalFound := finalR.length, blockedReason := none }

/-! The legacy recommender (`src/recommender.py`) — the rank computation
of `CourseRecommender.recommend` and its keyword-matching fallback, which
the spec's degraded-mode and rank sentences also cover. -/

/-- The per-item rank of `CourseRecommender.recommend` (lines 294-300 and
330-335 of `src/recommender.py`): 10 when all surviving scores coincide,
otherwise `round(((score - min) / (max - min)) * 10)`. -/
def recommenderRank (minS maxS s : ℚ) : ℤ :=
  if maxS = minS then 10 else pyRound (((s - minS) / (maxS - minS)) * 10)

/-- The rank-assignment region of `CourseRecommender.recommend`
(`src/recommender.py` lines 287-300): given the surviving candidate
scores `final_subset_scores` (every retained similarity is at or above
the threshold, sorted upstream), pair each score with its integer rank.
Reachable with e.g. two courses of similarities 0.5 and 0.25 at the
default threshold 0.25. -/
def courseRecommenderRanks (scores : List ℚ) : List (ℚ × ℤ) :=
  if scores.isEmpty then []
  else
    let minS := listMin scores
    let maxS := listMax scores
    scores.map (fun s => (s, recommenderRank minS maxS s))

/-- `format_course_text(row)` without an abbreviation map
(`src/utils.py` lines 247-255): the combined text embedded per item. -/
def format_course_text (c : Course) : String :=
  c.title ++ ". Skills: " ++ c.skills ++ ". " ++ c.description

/-- `keyword_score(text)` from the fallback branch of
`CourseRecommender.recommend` (`src/recommender.py` lines 308-309):
the number of query tokens (with multiplicity) occurring as substrings
of the lowercased item text. -/
def keyword_score (q : String) (text : String) : Nat :=
  ((pySplit (lowerStr q)).filter (fun w => containsSub w (lowerStr text))).length

/-- The keyword-matching fallback of `CourseRecommender.recommend`
(`src/recommender.py` lines 303-336): score every item text by
`keyword_score`, keep the strictly positive scores, take the `topK`
largest (pandas `nlargest`, stable on ties), and attach the same
round-based rank as the semantic branch.  Output: `(row index, score,
rank)` triples in result order. -/
def courseRecommenderFallback (texts : List String) (q : String) (topK : Nat) :
    List (Nat × ℚ × ℤ) :=
  let scored := (List.range texts.length).map
    (fun i => (i, (keyword_score q (texts.getD i "") : ℚ)))
  let pos := scored.filter (fun p => decide (0 < p.2))
  let top := (sortDescBy (fun p => p.2) pos).take topK
  let minS := listMin (top.map (fun p => p.2))
  let maxS := listMax (top.map (fun p => p.2))
  top.map (fun p => (p.1, p.2, recommenderRank minS maxS p.2))

/-- Everything but the rank of a candidate (for the frame property of the
rank normalizer). -/
def stripRank (c : Candidate) :
    String × String × ℚ × String × String × String × String × List String × List String :=
  (c.title, c.url, c.score, c.description, c.skills, c.category, c.level,
   c.matchedKeywords, c.why)

/-- The keyword occurs — case-insensitively, with the boundary-aware
matching of `check_match` — in the course's title, skills or
description. -/
def kwInCourse (kw : String) (c : Course) : Bool :=
  check_match c.title kw || check_match c.skills kw || check_match c.description kw

/-- Same occurrence test on a candidate's copied text fields. -/
def kwInCandidate (kw : String) (c : Candidate) : Bool :=
  check_match c.title kw || check_match c.skills kw || check_match c.description kw

/-- The `matched` list computed inside `check_gating`: the strong
keywords of the query that occur in the course's (NaN-blanked) title,
skills or description. -/
def matched_keywords_of (course : Course) (nq : String) : List String :=
  (extract_strong_keywords_regex nq).filter (fun kw =>
    check_match (nanBlank course.title) kw || check_match (nanBlank course.skills) kw ||
      check_match (nanBlank course.description) kw)

/-! Concrete catalog rows, requests and outputs used to instantiate the
claims on explicit inputs. -/

def courseA : Course :=
  { title := "Python for Beginners", skills := "Python, Basic Syntax, Loops",
    description := "Learn Python programming from scratch.",
    category := "Programming", level := "Beginner", url := "url1" }

def courseB : Course :=
  { title := "Advanced Python", skills := "Python, OOP",
    description := "Master Python.", category := "Programming",
    level := "Advanced", url := "url2" }

def courseDA : Course :=
  { title := "Data Analysis Fundamentals", skills := "Data Cleaning",
    description := "Analyze data in practice.", category := "Data Science",
    level := "Intermediate", url := "url3" }

def courseComm : Course :=
  { title := "Communication Skills", skills := "Presentation",
    description := "Improve communication.", category := "Business",
    level := "Beginner", url := "url4" }

def coursePT : Course :=
  { title := "Python tools", skills := "python",
    description := "tools for python work", category := "Programming",
    level := "Beginner", url := "url5" }

def reqPlain : Request := { topK := 10, filters := none, enableReranking := false }

def reqRerank : Request := { topK := 10, filters := none, enableReranking := true }

def candA : Candidate :=
  { title := "Python for Beginners", url := "url1", score := mkRat 9 10,
    description := "Learn Python programming from scratch.",
    skills := "Python, Basic Syntax, Loops", category := "Programming",
    level := "Beginner", matchedKeywords := ["python"],
    why := ["Semantic Match"], rank := none }

def candB : Candidate :=
  { title := "Advanced Python", url := "url2", score := mkRat 4 5,
    description := "Master Python.", skills := "Python, OOP",
    category := "Programming", level := "Advanced",
    matchedKeywords := ["python"], why := ["Semantic Match"], rank := none }

def candPT : Candidate :=
  { title := "Python tools", url := "url5", score := mkRat 1 2,
    description := "tools for python work", skills := "python",
    category := "Programming", level := "Beginner",
    matchedKeywords := ["python", "tools"],
    why := ["Keyword Match: python, tools"], rank := none }

def outC1 : RecommendOutput :=
  { results := [{ candA with rank := some 5 }], totalFound := 1, blockedReason := none }

def outC8 : RecommendOutput :=
  { results := [{ candPT with rank := some 5 }], totalFound := 1, blockedReason := none }

/-! Helper lemmas. -/

theorem mem_insertDescBy {f : α → ℚ} {c a : α} {l : List α} :
    a ∈ insertDescBy f c l ↔ a = c ∨ a ∈ l := by
  induction l with
  | nil => simp [insertDescBy]
  | cons x xs ih =>
    simp only [insertDescBy]
    split
    · simp
    · simp only [List.mem_cons, ih]
      tauto

theorem perm_insertDescBy (f : α → ℚ) (c : α) (l : List α) :
    (insertDescBy f c l).Perm (c :: l) := by
  induction l with
  | nil => simp [insertDescBy]
  | cons x xs ih =>
    simp only [insertDescBy]
    split
    · exact List.Perm.refl _
    · exact (List.Perm.cons x ih).trans (List.Perm.swap c x xs)

theorem perm_sortDescBy (f : α → ℚ) (l : List α) : (sortDescBy f l).Perm l := by
  induction l with
  | nil => simp [sortDescBy]
  | cons x xs ih =>
    exact (perm_insertDescBy f x (sortDescBy f xs)).trans (List.Perm.cons x ih)

theorem mem_sortDescBy {f : α → ℚ} {a : α} {l : List α} :
    a ∈ sortDescBy f l ↔ a ∈ l :=
  (perm_sortDescBy f l).mem_iff

theorem length_sortDescBy (f : α → ℚ) (l : List α) :
    (sortDescBy f l).length = l.length :=
  (perm_sortDescBy f l).length_eq

theorem sorted_insertDescBy {f : α → ℚ} {c : α} {l : List α}
    (h : l.Sorted (fun a b => f b ≤ f a)) :
    (insertDescBy f c l).Sorted (fun a b => f b ≤ f a) := by
  induction l with
  | nil => simp [insertDescBy]
  | cons x xs ih =>
    simp only [insertDescBy]
    rcases List.sorted_cons.1 h with ⟨hx, hxs⟩
    split
    · rename_i hle
      exact List.sorted_cons.2 ⟨fun b hb => by
        rcases List.mem_cons.1 hb with rfl | hb
        · exact hle
        · exact le_trans (hx b hb) hle, h⟩
    · rename_i hgt
      refine List.sorted_cons.2 ⟨fun b hb => ?_, ih hxs⟩
      rcases mem_insertDescBy.1 hb with rfl | hb
      · exact le_of_not_le hgt
      · exact hx b hb

theorem sorted_sortDescBy (f : α → ℚ) (l : List α) :
    (sortDescBy f l).Sorted (fun a b => f b ≤ f a) := by
  induction l with
  | nil => simp [sortDescBy]
  | cons x xs ih => exact sorted_insertDescBy ih

theorem sortDescBy_eq_self_of_const {f : α → ℚ} {v : ℚ} {l : List α}
    (h : ∀ a ∈ l, f a = v) : sortDescBy f l = l := by
  induction l with
  | nil => rfl
  | cons x xs ih =>
    have hxs : sortDescBy f xs = xs := ih (fun a ha => h a (List.mem_cons_of_mem x ha))
    simp only [sortDescBy, hxs]
    cases xs with
    | nil => rfl
    | cons y ys =>
      have hy : f y = v := h y (by simp)
      have hx : f x = v := h x (by simp)
      simp [insertDescBy, hy, hx]

theorem listMin_le_of_mem {a : ℚ} {l : List ℚ} (h : a ∈ l) : listMin l ≤ a := by
  induction l with
  | nil => cases h
  | cons x xs ih =>
    cases xs with
    | nil => simp at h; simp [listMin, h]
    | cons y ys =>
      rcases List.mem_cons.1 h with rfl | h
      · exact min_le_left _ _
      · exact le_trans (min_le_right _ _) (ih h)

theorem le_listMax_of_mem {a : ℚ} {l : List ℚ} (h : a ∈ l) : a ≤ listMax l := by
  induction l with
  | nil => cases h
  | cons x xs ih =>
    cases xs with
    | nil => simp at h; simp [listMax, h]
    | cons y ys =>
      rcases List.mem_cons.1 h with rfl | h
      · exact le_max_left _ _
      · exact le_trans (ih h) (le_max_right _ _)

theorem listMin_le_listMax {l : List ℚ} (h : l ≠ []) : listMin l ≤ listMax l := by
  cases l with
  | nil => exact absurd rfl h
  | cons x xs =>
    exact le_trans (listMin_le_of_mem (List.mem_cons_self x xs))
      (le_listMax_of_mem (List.mem_cons_self x xs))

theorem listMin_eq_of_const {v : ℚ} {l : List ℚ} (hne : l ≠ []) (h : ∀ a ∈ l, a = v) :
    listMin l = v := by
  induction l with
  | nil => exact absurd rfl hne
  | cons x xs ih =>
    have hx : x = v := h x (by simp)
    cases xs with
    | nil => simpa [listMin]
    | cons y ys =>
      have : listMin (y :: ys) = v := ih (by simp) (fun a ha => h a (List.mem_cons_of_mem x ha))
      simp [listMin, hx, this]

theorem listMax_eq_of_const {v : ℚ} {l : List ℚ} (hne : l ≠ []) (h : ∀ a ∈ l, a = v) :
    listMax l = v := by
  induction l with
  | nil => exact absurd rfl hne
  | cons x xs ih =>
    have hx : x = v := h x (by simp)
    cases xs with
    | nil => simpa [listMax]
    | cons y ys =>
      have : listMax (y :: ys) = v := ih (by simp) (fun a ha => h a (List.mem_cons_of_mem x ha))
      simp [listMax, hx, this]

theorem pyInt_of_nonneg {q : ℚ} (h : 0 ≤ q) : pyInt q = ⌊q⌋ := by
  simp [pyInt, not_lt.2 h]

theorem floor_le_pyRound (q : ℚ) : ⌊q⌋ ≤ pyRound q := by
  unfold pyRound
  split
  · exact le_refl _
  · split
    · omega
    · split
      · exact le_refl _
      · omega

theorem pyRound_le_floor_add_one (q : ℚ) : pyRound q ≤ ⌊q⌋ + 1 := by
  unfold pyRound
  split
  · omega
  · split
    · exact le_refl _
    · split
      · omega
      · exact le_refl _

theorem pyRound_mono {x y : ℚ} (h : x ≤ y) : pyRound x ≤ pyRound y := by
  rcases lt_or_ge ⌊x⌋ ⌊y⌋ with hf | hf
  · calc pyRound x ≤ ⌊x⌋ + 1 := pyRound_le_floor_add_one x
    _ ≤ ⌊y⌋ := by omega
    _ ≤ pyRound y := floor_le_pyRound y
  · have hfe : ⌊x⌋ = ⌊y⌋ := le_antisymm (Int.floor_le_floor h) hf
    have hfr : x - (⌊x⌋ : ℚ) ≤ y - (⌊y⌋ : ℚ) := by
      rw [hfe]
      exact sub_le_sub_right h _
    have hlbY := floor_le_pyRound y
    by_cases hx1 : x - (⌊x⌋ : ℚ) < 1/2
    · have e1 : pyRound x = ⌊x⌋ := by unfold pyRound; rw [if_pos hx1]
      omega
    · have hy1 : ¬ (y - (⌊y⌋ : ℚ) < 1/2) := fun hc => hx1 (lt_of_le_of_lt hfr hc)
      by_cases hx2 : (1:ℚ)/2 < x - (⌊x⌋ : ℚ)
      · have hy2 : (1:ℚ)/2 < y - (⌊y⌋ : ℚ) := lt_of_lt_of_le hx2 hfr
        have e1 : pyRound x = ⌊x⌋ + 1 := by unfold pyRound; rw [if_neg hx1, if_pos hx2]
        have e2 : pyRound y = ⌊y⌋ + 1 := by unfold pyRound; rw [if_neg hy1, if_pos hy2]
        omega
      · by_cases he : Even ⌊x⌋
        · have e1 : pyRound x = ⌊x⌋ := by unfold pyRound; rw [if_neg hx1, if_neg hx2, if_pos he]
          omega
        · have e1 : pyRound x = ⌊x⌋ + 1 := by
            unfold pyRound; rw [if_neg hx1, if_neg hx2, if_neg he]
          by_cases hy2 : (1:ℚ)/2 < y - (⌊y⌋ : ℚ)
          · have e2 : pyRound y = ⌊y⌋ + 1 := by unfold pyRound; rw [if_neg hy1, if_pos hy2]
            omega
          · have he2 : ¬ Even ⌊y⌋ := by rw [← hfe]; exact he
            have e2 : pyRound y = ⌊y⌋ + 1 := by
              unfold pyRound; rw [if_neg hy1, if_neg hy2, if_neg he2]
            omega

theorem pyRound_nonneg {q : ℚ} (h : 0 ≤ q) : 0 ≤ pyRound q := by
  have h1 : (0:ℤ) ≤ ⌊q⌋ := Int.floor_nonneg.2 h
  have := floor_le_pyRound q
  omega

theorem pyRound_le_ten {q : ℚ} (h : q ≤ 10) : pyRound q ≤ 10 := by
  have h1 : ⌊q⌋ ≤ 10 := by
    calc ⌊q⌋ ≤ ⌊(10:ℚ)⌋ := Int.floor_le_floor h
    _ = 10 := by norm_num
  rcases lt_or_ge ⌊q⌋ 10 with h2 | h2
  · have := pyRound_le_floor_add_one q
    omega
  · have h3 : ⌊q⌋ = 10 := le_antisymm h1 h2
    have h4 : q - ⌊q⌋ < 1/2 := by
      rw [h3]
      push_cast
      linarith
    unfold pyRound
    rw [if_pos h4, h3]

theorem strict_lower_fixed : ∀ s ∈ STRICT_TECH_KEYWORDS, lowerStr s = s := by decide

theorem strict_no_empty_match : ∀ s ∈ STRICT_TECH_KEYWORDS, check_match "" s = false := by decide

theorem check_match_nanBlank {s kw : String} (hkw : kw ∈ STRICT_TECH_KEYWORDS)
    (h : check_match (nanBlank s) kw = true) : check_match s kw = true := by
  unfold nanBlank at h
  split at h
  · rw [strict_no_empty_match kw hkw] at h
    cases h
  · exact h

theorem check_gating_single_strict {course : Course} {score : ℚ} {nq : String} {thr : ℚ}
    {short : Bool} {m : List String} {kw : String}
    (hq : pySplit nq = [kw]) (hkw : kw ∈ STRICT_TECH_KEYWORDS)
    (h : check_gating course score nq thr short = (true, m)) :
    kwInCourse kw course = true := by
  have hlow : lowerStr kw = kw := strict_lower_fixed kw hkw
  have hcont : STRICT_TECH_KEYWORDS.contains kw = true := by simpa using hkw
  have hex : extract_strong_keywords_regex nq = [kw] := by
    unfold extract_strong_keywords_regex
    rw [hq]
    simp only [List.filter_cons, List.filter_nil, hlow, hcont, Bool.true_or, if_pos]
  unfold check_gating at h
  rw [hex] at h
  by_cases hsc : score < thr
  · rw [if_pos hsc] at h
    simp at h
  · rw [if_neg hsc] at h
    simp only [List.filter_cons, List.filter_nil, hlow, hcont, Bool.true_or, if_pos,
      List.isEmpty_cons, Bool.false_eq_true, if_false, Bool.not_false, if_true] at h
    by_cases hm : (check_match (nanBlank course.title) kw || check_match (nanBlank course.skills) kw
        || check_match (nanBlank course.description) kw) = true
    · unfold kwInCourse
      simp only [Bool.or_eq_true] at hm ⊢
      rcases hm with (ht | hs) | hd
      · exact Or.inl (Or.inl (check_match_nanBlank hkw ht))
      · exact Or.inl (Or.inr (check_match_nanBlank hkw hs))
      · exact Or.inr (check_match_nanBlank hkw hd)
    · rw [if_neg hm] at h
      simp at h

theorem mem_filter_candidates {c : Candidate} {courses : List Course} {hits : List (Int × ℚ)}
    {flt : Option Filters} {nq : String} {short : Bool} {θ : ℚ}
    (h : c ∈ filter_candidates courses hits flt nq short θ) :
    ∃ course s, check_gating course s nq θ short = (true, c.matchedKeywords) ∧
      c.title = course.title ∧ c.skills = course.skills ∧
      c.description = course.description ∧ c.score = s := by
  unfold filter_candidates at h
  rcases List.mem_filterMap.1 h with ⟨⟨i, s⟩, _, hf⟩
  dsimp only at hf
  split at hf
  · cases hf
  · split at hf
    · cases hf
    · rename_i course hcourse
      split at hf
      · cases hf
      · split at hf
        · rename_i hg
          injection hf with hf
          subst hf
          refine ⟨course, s, ?_, rfl, rfl, rfl, rfl⟩
          have hpair : check_gating course s nq θ short =
              ((check_gating course s nq θ short).1, (check_gating course s nq θ short).2) := rfl
          rw [hpair, hg]
        · cases hf

theorem mem_fallbackCandidates {c : Candidate} {courses : List Course} {nq : String}
    {short : Bool} (h : c ∈ fallbackCandidates courses nq short) :
    ∃ course, check_gating course 1 nq 0 short = (true, c.matchedKeywords) ∧
      c.matchedKeywords ≠ [] ∧ c.score = mkRat 1 2 ∧
      c.title = course.title ∧ c.skills = course.skills ∧
      c.description = course.description := by
  unfold fallbackCandidates at h
  have h' := List.mem_of_mem_take h
  rcases List.mem_filterMap.1 h' with ⟨course, _, hf⟩
  unfold fallbackCandidate at hf
  dsimp only at hf
  split at hf
  · rename_i hg
    injection hf with hf
    subst hf
    rcases Bool.and_eq_true _ _ |>.mp hg with ⟨hg1, hg2⟩
    refine ⟨course, ?_, ?_, rfl, rfl, rfl, rfl⟩
    · have hpair : check_gating course 1 nq 0 short =
          ((check_gating course 1 nq 0 short).1, (check_gating course 1 nq 0 short).2) := rfl
      rw [hpair, hg1]
    · intro hc
      dsimp only at hc
      rw [hc] at hg2
      simp at hg2
  · cases hf

theorem kwInCandidate_of_identOf_eq {kw : String} {c c' : Candidate}
    (h : identOf c = identOf c') (hc : kwInCandidate kw c' = true) :
    kwInCandidate kw c = true := by
  unfold identOf at h
  simp only [Prod.mk.injEq] at h
  unfold kwInCandidate at hc ⊢
  rw [h.1, h.2.2.1, h.2.2.2.1]
  exact hc

theorem mem_gatherSemantic {c : Candidate} {courses : List Course} {hits : List (Int × ℚ)}
    {flt : Option Filters} {nq : String} {short : Bool} {θ : ℚ}
    (h : c ∈ (gatherSemantic courses hits flt nq short θ).2) :
    ∃ course s θ', check_gating course s nq θ' short = (true, c.matchedKeywords) ∧
      c.title = course.title ∧ c.skills = course.skills ∧
      c.description = course.description ∧ c.score = s := by
  unfold gatherSemantic at h
  dsimp only at h
  split at h
  · rcases mem_filter_candidates h with ⟨course, s, hg, h1, h2, h3, h4⟩
    exact ⟨course, s, SEMANTIC_THRESHOLD_RELAXED, hg, h1, h2, h3, h4⟩
  · rcases mem_filter_candidates h with ⟨course, s, hg, h1, h2, h3, h4⟩
    exact ⟨course, s, θ, hg, h1, h2, h3, h4⟩

theorem kw_in_all_cands {courses : List Course} {hits : List (Int × ℚ)}
    {flt : Option Filters} {nq : String} {short : Bool} {θ : ℚ} {canEncode : Bool} {kw : String}
    (hq : pySplit nq = [kw]) (hkw : kw ∈ STRICT_TECH_KEYWORDS) :
    ∀ c ∈ (if canEncode then (gatherSemantic courses hits flt nq short θ).2
           else fallbackCandidates courses nq short), kwInCandidate kw c = true := by
  intro c hc
  split at hc
  · rcases mem_gatherSemantic hc with ⟨course, s, θ', hg, h1, h2, h3, _⟩
    have := check_gating_single_strict hq hkw hg
    unfold kwInCandidate
    unfold kwInCourse at this
    rw [h1, h2, h3]
    exact this
  · rcases mem_fallbackCandidates hc with ⟨course, hg, _, _, h1, h2, h3⟩
    have := check_gating_single_strict hq hkw hg
    unfold kwInCandidate
    unfold kwInCourse at this
    rw [h1, h2, h3]
    exact this

theorem rankFor_eq_floor {minS maxS s : ℚ} (hlt : minS < maxS) (h1 : minS ≤ s) :
    rankFor minS maxS s = ⌊((s - minS) / (maxS - minS)) * 9⌋ + 1 := by
  have hd : (0:ℚ) < maxS - minS := sub_pos.2 hlt
  have harg : 0 ≤ ((s - minS) / (maxS - minS)) * 9 :=
    mul_nonneg (div_nonneg (sub_nonneg.2 h1) (le_of_lt hd)) (by norm_num)
  unfold rankFor
  rw [if_neg (ne_of_gt hlt), pyInt_of_nonneg harg]

theorem rankFor_bounds {minS maxS s : ℚ} (h1 : minS ≤ s) (h2 : s ≤ maxS) :
    1 ≤ rankFor minS maxS s ∧ rankFor minS maxS s ≤ 10 := by
  by_cases he : maxS = minS
  · unfold rankFor
    rw [if_pos he]
    omega
  · have hlt : minS < maxS := lt_of_le_of_ne (le_trans h1 h2) (fun hc => he hc.symm)
    have hd : (0:ℚ) < maxS - minS := sub_pos.2 hlt
    rw [rankFor_eq_floor hlt h1]
    have harg0 : 0 ≤ ((s - minS) / (maxS - minS)) * 9 :=
      mul_nonneg (div_nonneg (sub_nonneg.2 h1) (le_of_lt hd)) (by norm_num)
    have harg9 : ((s - minS) / (maxS - minS)) * 9 ≤ 9 := by
      have hq : (s - minS) / (maxS - minS) ≤ 1 :=
        (div_le_one hd).2 (sub_le_sub_right h2 _)
      nlinarith
    have hf0 : (0:ℤ) ≤ ⌊((s - minS) / (maxS - minS)) * 9⌋ := Int.floor_nonneg.2 harg0
    have hf9 : ⌊((s - minS) / (maxS - minS)) * 9⌋ ≤ 9 := by
      calc ⌊((s - minS) / (maxS - minS)) * 9⌋ ≤ ⌊(9:ℚ)⌋ := Int.floor_le_floor harg9
      _ = 9 := by norm_num
    omega

theorem rankFor_mono {minS maxS s t : ℚ} (hmm : minS ≤ maxS) (h1 : minS ≤ s) (hst : s ≤ t) :
    rankFor minS maxS s ≤ rankFor minS maxS t := by
  by_cases he : maxS = minS
  · unfold rankFor
    rw [if_pos he, if_pos he]
  · have hlt : minS < maxS := lt_of_le_of_ne hmm (fun hc => he hc.symm)
    have hd : (0:ℚ) < maxS - minS := sub_pos.2 hlt
    rw [rankFor_eq_floor hlt h1, rankFor_eq_floor hlt (le_trans h1 hst)]
    have hdiv : ((s - minS) / (maxS - minS)) * 9 ≤ ((t - minS) / (maxS - minS)) * 9 := by
      have := div_le_div_of_nonneg_right (c := maxS - minS) (sub_le_sub_right hst minS) (le_of_lt hd)
      nlinarith
    have := Int.floor_le_floor hdiv
    omega

theorem rankFor_at_min {minS maxS : ℚ} (hlt : minS < maxS) : rankFor minS maxS minS = 1 := by
  rw [rankFor_eq_floor hlt (le_refl _)]
  norm_num

theorem rankFor_at_max {minS maxS : ℚ} (hlt : minS < maxS) : rankFor minS maxS maxS = 10 := by
  rw [rankFor_eq_floor hlt (le_of_lt hlt)]
  have hd : maxS - minS ≠ 0 := ne_of_gt (sub_pos.2 hlt)
  rw [div_self hd]
  norm_num

theorem recommenderRank_bounds {minS maxS s : ℚ} (h1 : minS ≤ s) (h2 : s ≤ maxS) :
    0 ≤ recommenderRank minS maxS s ∧ recommenderRank minS maxS s ≤ 10 := by
  by_cases he : maxS = minS
  · unfold recommenderRank
    rw [if_pos he]
    omega
  · have hlt : minS < maxS := lt_of_le_of_ne (le_trans h1 h2) (fun hc => he hc.symm)
    have hd : (0:ℚ) < maxS - minS := sub_pos.2 hlt
    unfold recommenderRank
    rw [if_neg he]
    have harg0 : 0 ≤ ((s - minS) / (maxS - minS)) * 10 :=
      mul_nonneg (div_nonneg (sub_nonneg.2 h1) (le_of_lt hd)) (by norm_num)
    have harg10 : ((s - minS) / (maxS - minS)) * 10 ≤ 10 := by
      have hq : (s - minS) / (maxS - minS) ≤ 1 :=
        (div_le_one hd).2 (sub_le_sub_right h2 _)
      nlinarith
    exact ⟨pyRound_nonneg harg0, pyRound_le_ten harg10⟩

theorem recommenderRank_mono {minS maxS s t : ℚ} (hmm : minS ≤ maxS) (hst : s ≤ t) :
    recommenderRank minS maxS s ≤ recommenderRank minS maxS t := by
  by_cases he : maxS = minS
  · unfold recommenderRank
    rw [if_pos he, if_pos he]
  · have hlt : minS < maxS := lt_of_le_of_ne hmm (fun hc => he hc.symm)
    have hd : (0:ℚ) < maxS - minS := sub_pos.2 hlt
    unfold recommenderRank
    rw [if_neg he, if_neg he]
    apply pyRound_mono
    have := div_le_div_of_nonneg_right (c := maxS - minS) (sub_le_sub_right hst minS) (le_of_lt hd)
    nlinarith

theorem normalize_rank_get? (l : List Candidate) (i : Nat) :
    (normalize_rank_1_10 l).get? i =
      (l.get? i).map (fun r =>
        { r with rank := some (rankFor (listMin (l.map Candidate.score))
                                       (listMax (l.map Candidate.score)) r.score) }) := by
  unfold normalize_rank_1_10
  by_cases he : l.isEmpty
  · rw [if_pos he]
    rw [List.isEmpty_iff] at he
    subst he
    simp
  · rw [if_neg he]
    simp [List.get?_map]

theorem normalize_rank_length (l : List Candidate) :
    (normalize_rank_1_10 l).length = l.length := by
  unfold normalize_rank_1_10
  split
  · rfl
  · simp

theorem mem_normalize_rank {c : Candidate} {l : List Candidate}
    (h : c ∈ normalize_rank_1_10 l) :
    ∃ r ∈ l, c = { r with rank := some (rankFor (listMin (l.map Candidate.score))
                                                (listMax (l.map Candidate.score)) r.score) } := by
  unfold normalize_rank_1_10 at h
  by_cases he : l.isEmpty
  · rw [if_pos he] at h
    rw [List.isEmpty_iff] at he
    subst he
    cases h
  · rw [if_neg he] at h
    rcases List.mem_map.1 h with ⟨r, hr, hc⟩
    exact ⟨r, hr, hc.symm⟩

theorem normalize_rank_map_identOf (l : List Candidate) :
    (normalize_rank_1_10 l).map identOf = l.map identOf := by
  unfold normalize_rank_1_10
  split
  · rfl
  · simp only [List.map_map]
    rfl

theorem identOf_setRerankScore (c : Candidate) (s : ℚ) :
    identOf (setRerankScore c s) = identOf c := rfl

theorem map_identOf_zipWith_setRerank (l : List Candidate) (s : List ℚ) :
    (List.zipWith setRerankScore l s).map identOf = (l.take s.length).map identOf := by
  induction l generalizing s with
  | nil => simp
  | cons x xs ih =>
    cases s with
    | nil => simp
    | cons a as => simp [ih, identOf_setRerankScore]

theorem length_zipWith_setRerank_append (l : List Candidate) (s : List ℚ) :
    ((List.zipWith setRerankScore l s) ++ l.drop s.length).length = l.length := by
  simp only [List.length_append, List.length_zipWith, List.length_drop]
  omega

theorem rerankStep_length (r : List String → List ℚ) (cs : List Candidate) :
    (rerankStep r cs).length = cs.length := by
  unfold rerankStep
  rw [List.length_append, length_sortDescBy, length_zipWith_setRerank_append]
  simp only [List.length_take, List.length_drop]
  omega

theorem rerankStep_map_identOf_perm (r : List String → List ℚ) (cs : List Candidate)
    (hlen : (r ((cs.take 20).map Candidate.title)).length = (cs.take 20).length) :
    ((rerankStep r cs).map identOf).Perm (cs.map identOf) := by
  unfold rerankStep
  simp only [List.map_append]
  have h1 : ((sortDescBy Candidate.score
      ((List.zipWith setRerankScore (cs.take 20) (r ((cs.take 20).map Candidate.title)))
        ++ (cs.take 20).drop (r ((cs.take 20).map Candidate.title)).length)).map identOf).Perm
      (((List.zipWith setRerankScore (cs.take 20) (r ((cs.take 20).map Candidate.title)))
        ++ (cs.take 20).drop (r ((cs.take 20).map Candidate.title)).length).map identOf) :=
    (perm_sortDescBy _ _).map identOf
  refine h1.append_right _ |>.trans ?_
  rw [List.map_append, map_identOf_zipWith_setRerank, hlen]
  rw [List.take_length, List.drop_length]
  simp only [List.map_nil, List.append_nil]
  rw [← List.map_append, List.take_append_drop]

theorem mem_zipWith_setRerank {c : Candidate} {l : List Candidate} {s : List ℚ}
    (h : c ∈ List.zipWith setRerankScore l s) : ∃ x ∈ l, identOf c = identOf x := by
  induction l generalizing s with
  | nil => simp at h
  | cons x xs ih =>
    cases s with
    | nil => simp at h
    | cons a as =>
      rcases List.mem_cons.1 h with rfl | h
      · exact ⟨x, by simp, identOf_setRerankScore x a⟩
      · rcases ih (s := as) h with ⟨y, hy, hey⟩
        exact ⟨y, List.mem_cons_of_mem x hy, hey⟩

theorem mem_rerankStep {c : Candidate} {r : List String → List ℚ} {cs : List Candidate}
    (h : c ∈ rerankStep r cs) :
    ∃ c₀ ∈ cs, identOf c = identOf c₀ := by
  unfold rerankStep at h
  rcases List.mem_append.1 h with h | h
  · rw [mem_sortDescBy] at h
    rcases List.mem_append.1 h with h | h
    · rcases mem_zipWith_setRerank h with ⟨x, hx, hex⟩
      exact ⟨x, List.mem_of_mem_take hx, hex⟩
    · exact ⟨c, List.mem_of_mem_take (List.mem_of_mem_drop h), rfl⟩
  · exact ⟨c, List.mem_of_mem_drop h, rfl⟩

theorem rerankStep_sorted_part_length (r : List String → List ℚ) (cs : List Candidate) :
    (sortDescBy Candidate.score
      ((List.zipWith setRerankScore (cs.take 20) (r ((cs.take 20).map Candidate.title)))
        ++ (cs.take 20).drop (r ((cs.take 20).map Candidate.title)).length)).length
      = (cs.take 20).length := by
  rw [length_sortDescBy, length_zipWith_setRerank_append]

theorem rerankStep_take_20 (r : List String → List ℚ) (cs : List Candidate) :
    (rerankStep r cs).take 20 =
      sortDescBy Candidate.score
        ((List.zipWith setRerankScore (cs.take 20) (r ((cs.take 20).map Candidate.title)))
          ++ (cs.take 20).drop (r ((cs.take 20).map Candidate.title)).length) := by
  unfold rerankStep
  rcases le_or_lt cs.length 20 with hle | hlt
  · have htl : cs.drop 20 = [] := List.drop_eq_nil_of_le hle
    rw [htl, List.append_nil]
    apply List.take_of_length_le
    rw [rerankStep_sorted_part_length]
    simp only [List.length_take]
    omega
  · have hlen : (sortDescBy Candidate.score
        ((List.zipWith setRerankScore (cs.take 20) (r ((cs.take 20).map Candidate.title)))
          ++ (cs.take 20).drop (r ((cs.take 20).map Candidate.title)).length)).length = 20 := by
      rw [rerankStep_sorted_part_length]
      simp only [List.length_take]
      omega
    exact List.take_left' hlen

theorem rerankStep_drop_20 (r : List String → List ℚ) (cs : List Candidate) :
    (rerankStep r cs).drop 20 = cs.drop 20 := by
  unfold rerankStep
  rcases le_or_lt cs.length 20 with hle | hlt
  · have htl : cs.drop 20 = [] := List.drop_eq_nil_of_le hle
    rw [htl, List.append_nil]
    apply List.drop_eq_nil_of_le
    rw [rerankStep_sorted_part_length]
    simp only [List.length_take]
    omega
  · have hlen : (sortDescBy Candidate.score
        ((List.zipWith setRerankScore (cs.take 20) (r ((cs.take 20).map Candidate.title)))
          ++ (cs.take 20).drop (r ((cs.take 20).map Candidate.title)).length)).length = 20 := by
      rw [rerankStep_sorted_part_length]
      simp only [List.length_take]
      omega
    exact List.drop_left' hlen

theorem score_zipWith_zero {c : Candidate} {l : List Candidate} {s : List ℚ}
    (hs : ∀ x ∈ s, x = 0) (h : c ∈ List.zipWith setRerankScore l s) : c.score = 0 := by
  induction l generalizing s with
  | nil => simp at h
  | cons x xs ih =>
    cases s with
    | nil => simp at h
    | cons a as =>
      rcases List.mem_cons.1 h with rfl | h
      · have : a = 0 := hs a (by simp)
        simp [setRerankScore, this]
      · exact ih (fun x hx => hs x (List.mem_cons_of_mem a hx)) h

theorem zeroRerank_all (nq : String) (ts : List String) : ∀ x ∈ zeroRerank nq ts, x = 0 := by
  intro x hx
  unfold zeroRerank at hx
  rcases List.mem_map.1 hx with ⟨t, _, h⟩
  exact h.symm

theorem rerankStep_zero_map_identOf (nq : String) (cs : List Candidate) :
    (rerankStep (zeroRerank nq) cs).map identOf = cs.map identOf := by
  unfold rerankStep
  dsimp only
  have hzlen : ((zeroRerank nq) ((cs.take 20).map Candidate.title)).length
      = (cs.take 20).length := by
    simp [zeroRerank]
  have hdropnil : (cs.take 20).drop ((zeroRerank nq) ((cs.take 20).map Candidate.title)).length
      = [] := by
    rw [hzlen, List.drop_length]
  rw [hdropnil, List.append_nil]
  have hzero : ∀ c ∈ List.zipWith setRerankScore (cs.take 20)
      ((zeroRerank nq) ((cs.take 20).map Candidate.title)), Candidate.score c = 0 := by
    intro c hc
    exact score_zipWith_zero (zeroRerank_all nq _) hc
  rw [sortDescBy_eq_self_of_const hzero]
  rw [List.map_append, map_identOf_zipWith_setRerank, hzlen, List.take_length]
  rw [← List.map_append, List.take_append_drop]

theorem rerankStep_zero_take_20_score {nq : String} {cs : List Candidate} {c : Candidate}
    (h : c ∈ (rerankStep (zeroRerank nq) cs).take 20) : c.score = 0 := by
  rw [rerankStep_take_20] at h
  rw [mem_sortDescBy] at h
  rcases List.mem_append.1 h with h | h
  · exact score_zipWith_zero (zeroRerank_all nq _) h
  · have : ((zeroRerank nq) ((cs.take 20).map Candidate.title)).length
        = (cs.take 20).length := by simp [zeroRerank]
    rw [this, List.drop_length] at h
    cases h

/-! Claim theorems. -/

/-- C1: for every query whose normalized form is a single strict
technical keyword, every item returned by the recommendation pipeline has
that keyword occurring (case-insensitively, boundary-aware) in the item's
title, skills or description; equivalently, `check_gating` accepts a
course for such a query only if the strict keyword matches the course
text. -/
theorem C1_single_keyword_strict {courses : List Course} {hits : List (Int × ℚ)}
    {canEncode : Bool} {rerank : String → List String → List ℚ} {req : Request}
    {nq : String} {isAr : Bool} {kw : String} {out : RecommendOutput}
    (hq : pySplit nq = [kw]) (hkw : kw ∈ STRICT_TECH_KEYWORDS)
    (hout : recommend courses hits canEncode rerank req nq isAr = .ok out) :
    (∀ c ∈ out.results, kwInCandidate kw c = true) ∧
    (∀ (course : Course) (score thr : ℚ) (short : Bool) (m : List String),
      check_gating course score nq thr short = (true, m) → kwInCourse kw course = true) := by
  refine ⟨?_, fun course score thr short m hg => check_gating_single_strict hq hkw hg⟩
  unfold recommend at hout
  cases hfm : firstMissingCritical courses nq with
  | some kw' =>
    rw [hfm] at hout
    injection hout with hout
    subst hout
    intro c hc
    cases hc
  | none =>
    rw [hfm] at hout
    have hshort : isShortOf nq = true := by
      unfold isShortOf
      rw [hq]
      simp
    dsimp only at hout
    rw [hshort] at hout
    simp only [Bool.not_true, Bool.and_false, Bool.false_eq_true, if_false] at hout
    injection hout with hout
    subst hout
    intro c hc
    dsimp only at hc
    rcases mem_normalize_rank hc with ⟨r, hr, rfl⟩
    have hkwr : kwInCandidate kw r = true := by
      have hr2 := List.mem_of_mem_take hr
      by_cases hrr : (req.enableReranking && decide (1 < (if canEncode then
          (gatherSemantic courses hits req.filters nq true
            (if isAr then SEMANTIC_THRESHOLD_ARABIC else SEMANTIC_THRESHOLD_GENERAL)).2
          else fallbackCandidates courses nq true).length)) = true
      · rw [if_pos hrr] at hr2
        rcases mem_rerankStep hr2 with ⟨c₀, hc₀, hident⟩
        exact kwInCandidate_of_identOf_eq hident (kw_in_all_cands hq hkw c₀ hc₀)
      · rw [if_neg hrr] at hr2
        exact kw_in_all_cands hq hkw r hr2
    exact hkwr

/-- Witness for C1 at a concrete catalog, retrieval result and query. -/
theorem C1_single_keyword_strict_witness :
    pySplit "python" = ["python"] ∧ "python" ∈ STRICT_TECH_KEYWORDS ∧
    recommend [courseA] [(0, mkRat 9 10)] true (fun _ _ => []) reqPlain "python" false
      = .ok outC1 ∧
    (∀ c ∈ outC1.results, kwInCandidate "python" c = true) := by
  have h1 : pySplit "python" = ["python"] := by rfl
  have h2 : "python" ∈ STRICT_TECH_KEYWORDS := by decide
  have h3 : recommend [courseA] [(0, mkRat 9 10)] true (fun _ _ => []) reqPlain "python" false
      = .ok outC1 := by rfl
  exact ⟨h1, h2, h3, (C1_single_keyword_strict h1 h2 h3).1⟩

/-- C2: a query containing a strict must-exist technical keyword that is
absent (as a substring) from the global corpus text is short-circuited:
the pipeline returns zero results with a blocked reason, and the output
does not depend on the retrieval results, the encoder flag, the reranker
or the Arabic flag (retrieval and per-item gating are never consulted). -/
theorem C2_global_existence_block {courses : List Course} {hits : List (Int × ℚ)}
    {canEncode : Bool} {rerank : String → List String → List ℚ} {req : Request}
    {nq : String} {isAr : Bool} {t : String}
    (ht : t ∈ pySplit nq) (hstrict : lowerStr t ∈ STRICT_TECH_KEYWORDS)
    (hmiss : containsSub (lowerStr t) (global_corpus_text courses) = false) :
    (∃ msg, recommend courses hits canEncode rerank req nq isAr =
      .ok { results := [], totalFound := 0, blockedReason := some msg }) ∧
    (∀ (hits' : List (Int × ℚ)) (canEncode' : Bool)
       (rerank' : String → List String → List ℚ) (isAr' : Bool),
      recommend courses hits' canEncode' rerank' req nq isAr' =
        recommend courses hits canEncode rerank req nq isAr) := by
  have hkeep : t ∈ extract_strong_keywords_regex nq := by
    unfold extract_strong_keywords_regex
    refine List.mem_filter.2 ⟨ht, ?_⟩
    have hc : STRICT_TECH_KEYWORDS.contains (lowerStr t) = true := by simpa using hstrict
    rw [hc]
    rfl
  have hcrit : t ∈ critical_keywords nq := by
    unfold critical_keywords
    refine List.mem_filter.2 ⟨hkeep, ?_⟩
    simpa using hstrict
  have hfind : (firstMissingCritical courses nq).isSome := by
    unfold firstMissingCritical
    refine List.find?_isSome.2 ⟨t, hcrit, ?_⟩
    rw [hmiss]
    rfl
  obtain ⟨kw0, hkw0⟩ := Option.isSome_iff_exists.1 hfind
  constructor
  · refine ⟨"Topic " ++ kw0 ++ " not found in database.", ?_⟩
    unfold recommend
    rw [hkw0]
  · intro hits' ce' rr' isAr'
    unfold recommend
    rw [hkw0]

/-- Witness for C2: the strict keyword `flutter` does not occur in the
one-course catalog, so the query is blocked. -/
theorem C2_global_existence_block_witness :
    "flutter" ∈ pySplit "flutter" ∧
    lowerStr "flutter" ∈ STRICT_TECH_KEYWORDS ∧
    containsSub (lowerStr "flutter") (global_corpus_text [courseA]) = false ∧
    (∃ msg, recommend [courseA] [(0, mkRat 9 10)] true (fun _ _ => []) reqPlain "flutter" false
      = .ok { results := [], totalFound := 0, blockedReason := some msg }) := by
  refine ⟨by decide, by decide, by decide, ?_⟩
  exact (C2_global_existence_block (t := "flutter") (by decide) (by decide) (by decide)).1

/-- C10: `normalize_rank_1_10` returns a list of the same length with the
candidates in the same order, and every field other than `rank` (score,
title, url, ...) unchanged. -/
theorem C10_normalize_rank_frame (l : List Candidate) :
    (normalize_rank_1_10 l).length = l.length ∧
    ∀ i : Nat, ((normalize_rank_1_10 l).get? i).map stripRank = (l.get? i).map stripRank := by
  refine ⟨normalize_rank_length l, fun i => ?_⟩
  rw [normalize_rank_get?]
  cases l.get? i <;> rfl

/-- C3: in the semantic path, threshold relaxation (re-running candidate
filtering at the relaxed threshold) happens exactly when the candidate
count at the primary threshold is below 3 and the normalized query has
more than 2 tokens; and for a short query (at most 2 tokens) the pipeline
never relaxes and returns fewer than 3 results whenever fewer than 3
candidates pass the primary threshold. -/
theorem C3_relaxation_trigger {courses : List Course} {hits : List (Int × ℚ)}
    {flt : Option Filters} {nq : String} {θ : ℚ} {rerank : String → List String → List ℚ}
    {req : Request} {isAr : Bool} {out : RecommendOutput} :
    ((gatherSemantic courses hits flt nq (isShortOf nq) θ).1 = true ↔
      ((filter_candidates courses hits flt nq (isShortOf nq) θ).length < 3 ∧
        2 < (pySplit nq).length)) ∧
    ((pySplit nq).length ≤ 2 →
      recommend courses hits true rerank req nq isAr = .ok out →
      (filter_candidates courses hits req.filters nq true
        (if isAr then SEMANTIC_THRESHOLD_ARABIC else SEMANTIC_THRESHOLD_GENERAL)).length < 3 →
      out.results.length < 3) := by
  have hshort_iff : (!isShortOf nq) = true ↔ 2 < (pySplit nq).length := by
    unfold isShortOf
    simp only [Bool.not_eq_true', decide_eq_false_iff_not, not_le]
  constructor
  · unfold gatherSemantic
    dsimp only
    by_cases hcond : (decide ((filter_candidates courses hits flt nq (isShortOf nq) θ).length < 3)
        && !isShortOf nq) = true
    · rw [if_pos hcond]
      rcases Bool.and_eq_true _ _ |>.mp hcond with ⟨h1, h2⟩
      simp only [true_iff]
      exact ⟨of_decide_eq_true h1, hshort_iff.1 h2⟩
    · rw [if_neg hcond]
      simp only [Bool.false_eq_true, false_iff, not_and]
      intro hlen hlong
      exact hcond (Bool.and_eq_true _ _ |>.mpr ⟨decide_eq_true hlen, hshort_iff.2 hlong⟩)
  · intro hshort hout hlow
    have hsb : isShortOf nq = true := decide_eq_true hshort
    unfold recommend at hout
    cases hfm : firstMissingCritical courses nq with
    | some kw' =>
      rw [hfm] at hout
      injection hout with hout
      subst hout
      simp
    | none =>
      rw [hfm] at hout
      dsimp only at hout
      rw [hsb] at hout
      simp only [Bool.not_true, Bool.and_false, Bool.false_eq_true, if_false] at hout
      have hg : gatherSemantic courses hits req.filters nq true
          (if isAr then SEMANTIC_THRESHOLD_ARABIC else SEMANTIC_THRESHOLD_GENERAL) =
          (false, filter_candidates courses hits req.filters nq true
            (if isAr then SEMANTIC_THRESHOLD_ARABIC else SEMANTIC_THRESHOLD_GENERAL)) := by
        unfold gatherSemantic
        simp
      rw [hg] at hout
      dsimp only at hout
      injection hout with hout
      subst hout
      dsimp only
      simp only [if_true, ite_true]
      rw [normalize_rank_length]
      set prim := filter_candidates courses hits req.filters nq true
        (if isAr then SEMANTIC_THRESHOLD_ARABIC else SEMANTIC_THRESHOLD_GENERAL) with hprim
      by_cases hrr : (req.enableReranking && decide (1 < prim.length)) = true
      · rw [if_pos hrr]
        have hlen := rerankStep_length (rerank nq) prim
        have ht : ((rerankStep (rerank nq) prim).take req.topK).length
            = min req.topK (rerankStep (rerank nq) prim).length := by
          simp [List.length_take]
        omega
      · rw [if_neg hrr]
        have ht : (prim.take req.topK).length = min req.topK prim.length := by
          simp [List.length_take]
        omega

/-- Witness for C3: the short query `python` with one passing candidate
does not relax and returns a single result. -/
theorem C3_relaxation_trigger_witness :
    (pySplit "python").length ≤ 2 ∧
    recommend [courseA] [(0, mkRat 9 10)] true (fun _ _ => []) reqPlain "python" false
      = .ok outC1 ∧
    (filter_candidates [courseA] [(0, mkRat 9 10)] reqPlain.filters "python" true
      (if false then SEMANTIC_THRESHOLD_ARABIC else SEMANTIC_THRESHOLD_GENERAL)).length < 3 ∧
    outC1.results.length < 3 ∧
    (gatherSemantic [courseA] [(0, mkRat 9 10)] none "python" (isShortOf "python")
      SEMANTIC_THRESHOLD_GENERAL).1 = false := by
  have h1 : (pySplit "python").length ≤ 2 := by decide
  have h2 : recommend [courseA] [(0, mkRat 9 10)] true (fun _ _ => []) reqPlain "python" false
      = .ok outC1 := by rfl
  have h3 : (filter_candidates [courseA] [(0, mkRat 9 10)] reqPlain.filters "python" true
      (if false then SEMANTIC_THRESHOLD_ARABIC else SEMANTIC_THRESHOLD_GENERAL)).length < 3 := by
    decide
  exact ⟨h1, h2, h3,
    (@C3_relaxation_trigger [courseA] [(0, mkRat 9 10)] none "python"
      SEMANTIC_THRESHOLD_GENERAL (fun _ _ => []) reqPlain false outC1).2 h1 h2 h3,
    by decide⟩

/-- C4 counterexample: the rank computation of
`CourseRecommender.recommend` (`src/recommender.py` lines 287-300)
assigns rank 0 — an integer outside [1,10] — to the minimum-score
survivor whenever two survivors have different scores; reachable with two
courses of similarity 0.5 and 0.25 at the default threshold 0.25.  This
refutes the claim that every assigned rank lies in [1,10]. -/
theorem C4_rank_zero_counterexample :
    courseRecommenderRanks [mkRat 1 2, mkRat 1 4] = [(mkRat 1 2, 10), (mkRat 1 4, 0)] ∧
    ¬ ((1:ℤ) ≤ 0) := by
  constructor
  · have hmin : listMin [mkRat 1 2, mkRat 1 4] = mkRat 1 4 := by decide
    have hmax : listMax [mkRat 1 2, mkRat 1 4] = mkRat 1 2 := by decide
    have harg1 : ((mkRat 1 2 - mkRat 1 4) / (mkRat 1 2 - mkRat 1 4) * 10 : ℚ) = 10 := by
      norm_num [Rat.mkRat_eq_div]
    have harg2 : ((mkRat 1 4 - mkRat 1 4) / (mkRat 1 2 - mkRat 1 4) * 10 : ℚ) = 0 := by
      norm_num [Rat.mkRat_eq_div]
    have hr1 : pyRound (10:ℚ) = 10 := by
      unfold pyRound
      norm_num
    have hr0 : pyRound (0:ℚ) = 0 := by
      unfold pyRound
      norm_num
    have hne : (mkRat 1 2 : ℚ) ≠ mkRat 1 4 := by decide
    unfold courseRecommenderRanks
    simp only [List.isEmpty_cons, Bool.false_eq_true, if_false, List.map_cons, List.map_nil,
      hmin, hmax]
    unfold recommenderRank
    rw [if_neg hne, if_neg hne, harg1, harg2, hr1, hr0]
  · decide

/-- C4 (amended): ranks assigned by the pipeline rank normalizer
`normalize_rank_1_10` are integers in [1,10] and monotone in score (a
strictly higher score never gets a strictly lower rank); the inline rank
computation of `CourseRecommender.recommend` instead yields integers in
[0,10], also monotone in score. -/
theorem C4_rank_bounds_monotone :
    (∀ (l : List Candidate), ∀ a ∈ normalize_rank_1_10 l,
      ∃ ra, a.rank = some ra ∧ 1 ≤ ra ∧ ra ≤ 10) ∧
    (∀ (l : List Candidate), ∀ a ∈ normalize_rank_1_10 l, ∀ b ∈ normalize_rank_1_10 l,
      ∀ ra rb : ℤ, a.rank = some ra → b.rank = some rb → b.score < a.score → rb ≤ ra) ∧
    (∀ (scores : List ℚ), ∀ p ∈ courseRecommenderRanks scores, 0 ≤ p.2 ∧ p.2 ≤ 10) ∧
    (∀ (scores : List ℚ), ∀ p ∈ courseRecommenderRanks scores,
      ∀ q ∈ courseRecommenderRanks scores, q.1 < p.1 → q.2 ≤ p.2) := by
  refine ⟨?_, ?_, ?_, ?_⟩
  · intro l a ha
    rcases mem_normalize_rank ha with ⟨r, hr, rfl⟩
    have h1 : listMin (l.map Candidate.score) ≤ r.score :=
      listMin_le_of_mem (List.mem_map_of_mem Candidate.score hr)
    have h2 : r.score ≤ listMax (l.map Candidate.score) :=
      le_listMax_of_mem (List.mem_map_of_mem Candidate.score hr)
    exact ⟨_, rfl, (rankFor_bounds h1 h2).1, (rankFor_bounds h1 h2).2⟩
  · intro l a ha b hb ra rb hra hrb hlt
    rcases mem_normalize_rank ha with ⟨r, hr, rfl⟩
    rcases mem_normalize_rank hb with ⟨r', hr', rfl⟩
    have hra' := Option.some.inj hra
    have hrb' := Option.some.inj hrb
    subst hra' hrb'
    have hne : l ≠ [] := by
      intro hc
      subst hc
      cases hr
    have hmm : listMin (l.map Candidate.score) ≤ listMax (l.map Candidate.score) :=
      listMin_le_listMax (by simpa using hne)
    have h1 : listMin (l.map Candidate.score) ≤ r'.score :=
      listMin_le_of_mem (List.mem_map_of_mem Candidate.score hr')
    exact rankFor_mono hmm h1 (le_of_lt hlt)
  · intro scores p hp
    by_cases he : scores.isEmpty
    · unfold courseRecommenderRanks at hp
      rw [if_pos he] at hp
      cases hp
    · unfold courseRecommenderRanks at hp
      rw [if_neg he] at hp
      dsimp only at hp
      rcases List.mem_map.1 hp with ⟨s, hs, rfl⟩
      exact recommenderRank_bounds (listMin_le_of_mem hs) (le_listMax_of_mem hs)
  · intro scores p hp q hq hlt
    by_cases he : scores.isEmpty
    · unfold courseRecommenderRanks at hp
      rw [if_pos he] at hp
      cases hp
    · unfold courseRecommenderRanks at hp hq
      rw [if_neg he] at hp hq
      dsimp only at hp hq
      rcases List.mem_map.1 hp with ⟨s, hs, rfl⟩
      rcases List.mem_map.1 hq with ⟨s', hs', rfl⟩
      have hne : scores ≠ [] := by
        intro hc
        subst hc
        cases hs
      exact recommenderRank_mono (listMin_le_listMax hne) (le_of_lt hlt)

/-- Witness for the amended C4 at concrete inputs. -/
theorem C4_rank_bounds_monotone_witness :
    ({ candA with rank := some 5 } ∈ normalize_rank_1_10 [candA]) ∧
    (∃ ra, ({ candA with rank := some (5:ℤ) }).rank = some ra ∧ 1 ≤ ra ∧ ra ≤ 10) ∧
    ((mkRat 1 2, (10:ℤ)) ∈ courseRecommenderRanks [mkRat 1 2, mkRat 1 2]) ∧
    (0 ≤ (10:ℤ) ∧ (10:ℤ) ≤ 10) := by
  have hm : { candA with rank := some (5:ℤ) } ∈ normalize_rank_1_10 [candA] := by decide
  have hm2 : (mkRat 1 2, (10:ℤ)) ∈ courseRecommenderRanks [mkRat 1 2, mkRat 1 2] := by decide
  exact ⟨hm, C4_rank_bounds_monotone.1 [candA] _ hm,
    hm2, C4_rank_bounds_monotone.2.2.1 [mkRat 1 2, mkRat 1 2] _ hm2⟩

/-- C5: reranking never changes which candidates are in the result set
(the multiset of candidate identities is preserved); only the first 20
entries are re-scored and re-sorted descending by the new reranker score
(stable), and everything beyond position 20 keeps its pre-rerank relative
order and original score.  The hypothesis records that the reranker
returns one score per title, as `EmbeddingService.rerank` always does. -/
theorem C5_rerank_frame {rr : List String → List ℚ} {cands : List Candidate}
    (hlen : (rr ((cands.take 20).map Candidate.title)).length = (cands.take 20).length) :
    ((rerankStep rr cands).map identOf).Perm (cands.map identOf) ∧
    (rerankStep rr cands).drop 20 = cands.drop 20 ∧
    ((rerankStep rr cands).take 20).Sorted (fun a b => b.score ≤ a.score) ∧
    ((rerankStep rr cands).take 20).Perm
      (List.zipWith setRerankScore (cands.take 20)
        (rr ((cands.take 20).map Candidate.title))) := by
  refine ⟨rerankStep_map_identOf_perm rr cands hlen, rerankStep_drop_20 rr cands, ?_, ?_⟩
  · rw [rerankStep_take_20]
    exact sorted_sortDescBy _ _
  · rw [rerankStep_take_20]
    have hdrop : (cands.take 20).drop (rr ((cands.take 20).map Candidate.title)).length = [] := by
      rw [hlen, List.drop_length]
    rw [hdrop, List.append_nil]
    exact perm_sortDescBy _ _

/-- Witness for C5 on a concrete two-candidate list and a constant
reranker. -/
theorem C5_rerank_frame_witness :
    ((fun ts => List.map (fun _ => mkRat 1 10) ts)
        (([candA, candB].take 20).map Candidate.title)).length
      = ([candA, candB].take 20).length ∧
    ((rerankStep (fun ts => List.map (fun _ => mkRat 1 10) ts) [candA, candB]).map
        identOf).Perm ([candA, candB].map identOf) ∧
    (rerankStep (fun ts => List.map (fun _ => mkRat 1 10) ts) [candA, candB]).drop 20
      = [candA, candB].drop 20 ∧
    ((rerankStep (fun ts => List.map (fun _ => mkRat 1 10) ts) [candA, candB]).take 20).Sorted
      (fun a b => b.score ≤ a.score) ∧
    ((rerankStep (fun ts => List.map (fun _ => mkRat 1 10) ts) [candA, candB]).take 20).Perm
      (List.zipWith setRerankScore ([candA, candB].take 20)
        ((fun ts => List.map (fun _ => mkRat 1 10) ts)
          (([candA, candB].take 20).map Candidate.title))) := by
  have h : ((fun ts => List.map (fun _ => mkRat 1 10) ts)
      (([candA, candB].take 20).map Candidate.title)).length
      = ([candA, candB].take 20).length := by decide
  obtain ⟨ha, hb, hc, hd⟩ := C5_rerank_frame h
  exact ⟨h, ha, hb, hc, hd⟩

/-- C6 counterexample: for the non-short query `python data analysis`
(score 0.5, above the general threshold, strong keywords non-empty), the
strong keyword `data` matches the course — yet `check_gating` rejects,
because the query contains the strict keyword `python` and no strict
keyword matches.  This refutes "accepts whenever at least one strong
keyword matches the course text". -/
theorem C6_strict_override_counterexample :
    2 < (pySplit "python data analysis").length ∧
    ¬ (mkRat 1 2 < SEMANTIC_THRESHOLD_GENERAL) ∧
    extract_strong_keywords_regex "python data analysis" ≠ [] ∧
    "data" ∈ extract_strong_keywords_regex "python data analysis" ∧
    check_match courseDA.title "data" = true ∧
    check_gating courseDA (mkRat 1 2) "python data analysis" SEMANTIC_THRESHOLD_GENERAL false
      = (false, []) := by
  decide

/-- C6 (amended): for every non-short query passing the threshold with a
non-empty strong-keyword set: when the query contains no strict technical
keyword, `check_gating` accepts exactly the matched-keyword case (or the
no-match case with raw score above 0.60, with empty matched evidence);
when the query does contain a strict technical keyword, acceptance
requires a matched strict keyword, regardless of the 0.60 ceiling. -/
theorem C6_long_query_gating {course : Course} {score : ℚ} {nq : String} {thr : ℚ}
    (hsc : ¬ score < thr)
    (hkwne : extract_strong_keywords_regex nq ≠ []) :
    (((extract_strong_keywords_regex nq).filter
        (fun k => STRICT_TECH_KEYWORDS.contains (lowerStr k)) = []) →
      (matched_keywords_of course nq ≠ [] →
        check_gating course score nq thr false = (true, matched_keywords_of course nq)) ∧
      (matched_keywords_of course nq = [] → mkRat 3 5 < score →
        check_gating course score nq thr false = (true, [])) ∧
      (matched_keywords_of course nq = [] → ¬ mkRat 3 5 < score →
        check_gating course score nq thr false = (false, []))) ∧
    (((extract_strong_keywords_regex nq).filter
        (fun k => STRICT_TECH_KEYWORDS.contains (lowerStr k)) ≠ []) →
      ((matched_keywords_of course nq).filter
          (fun m => STRICT_TECH_KEYWORDS.contains m) ≠ [] →
        check_gating course score nq thr false = (true, matched_keywords_of course nq)) ∧
      ((matched_keywords_of course nq).filter
          (fun m => STRICT_TECH_KEYWORDS.contains m) = [] →
        check_gating course score nq thr false = (false, []))) := by
  have hkeyw : (extract_strong_keywords_regex nq).isEmpty = false := by
    rw [Bool.eq_false_iff]
    intro hc
    exact hkwne (List.isEmpty_iff.1 hc)
  have hgdef : check_gating course score nq thr false =
      (if !((extract_strong_keywords_regex nq).filter
          (fun k => STRICT_TECH_KEYWORDS.contains (lowerStr k))).isEmpty then
        (if !((matched_keywords_of course nq).filter
            (fun m => STRICT_TECH_KEYWORDS.contains m)).isEmpty then
          (true, matched_keywords_of course nq) else (false, []))
      else if !(matched_keywords_of course nq).isEmpty then
        (true, matched_keywords_of course nq)
      else if mkRat 3 5 < score then (true, [])
      else (false, [])) := by
    unfold check_gating matched_keywords_of
    dsimp only
    rw [if_neg hsc, hkeyw]
    simp only [Bool.false_eq_true, if_false]
  constructor
  · intro hst
    rw [hgdef, hst]
    simp only [List.isEmpty_nil, Bool.not_true, Bool.false_eq_true, if_false]
    refine ⟨?_, ?_, ?_⟩
    · intro hm
      have hm' : (matched_keywords_of course nq).isEmpty = false := by
        rw [Bool.eq_false_iff]
        intro hc
        exact hm (List.isEmpty_iff.1 hc)
      rw [hm']
      simp
    · intro hm hsc6
      rw [hm]
      simp only [List.isEmpty_nil, Bool.not_true, Bool.false_eq_true, if_false]
      rw [if_pos hsc6]
    · intro hm hsc6
      rw [hm]
      simp only [List.isEmpty_nil, Bool.not_true, Bool.false_eq_true, if_false]
      rw [if_neg hsc6]
  · intro hst
    have hst' : (!((extract_strong_keywords_regex nq).filter
        (fun k => STRICT_TECH_KEYWORDS.contains (lowerStr k))).isEmpty) = true := by
      rw [Bool.not_eq_true']
      rw [Bool.eq_false_iff]
      intro hc
      exact hst (List.isEmpty_iff.1 hc)
    rw [hgdef, if_pos hst']
    constructor
    · intro hm
      have hm' : (!((matched_keywords_of course nq).filter
          (fun m => STRICT_TECH_KEYWORDS.contains m)).isEmpty) = true := by
        rw [Bool.not_eq_true']
        rw [Bool.eq_false_iff]
        intro hc
        exact hm (List.isEmpty_iff.1 hc)
      rw [if_pos hm']
    · intro hm
      rw [hm]
      simp

/-- Witness for the amended C6: a non-short query with no strict keyword
is accepted on a strong-keyword match. -/
theorem C6_long_query_gating_witness :
    ¬ (mkRat 1 2 < SEMANTIC_THRESHOLD_GENERAL) ∧
    extract_strong_keywords_regex "communication skills training" ≠ [] ∧
    (extract_strong_keywords_regex "communication skills training").filter
      (fun k => STRICT_TECH_KEYWORDS.contains (lowerStr k)) = [] ∧
    matched_keywords_of courseComm "communication skills training" ≠ [] ∧
    check_gating courseComm (mkRat 1 2) "communication skills training"
      SEMANTIC_THRESHOLD_GENERAL false
      = (true, matched_keywords_of courseComm "communication skills training") := by
  have h1 : ¬ (mkRat 1 2 < SEMANTIC_THRESHOLD_GENERAL) := by decide
  have h2 : extract_strong_keywords_regex "communication skills training" ≠ [] := by decide
  have h3 : (extract_strong_keywords_regex "communication skills training").filter
      (fun k => STRICT_TECH_KEYWORDS.contains (lowerStr k)) = [] := by decide
  have h4 : matched_keywords_of courseComm "communication skills training" ≠ [] := by decide
  exact ⟨h1, h2, h3, h4, ((C6_long_query_gating h1 h2).1 h3).1 h4⟩

/-- C7: `normalize_rank_1_10` maps the score interval
`[min_score, max_score]` of the surviving set linearly (with floor
quantization, `int(normalized * 9) + 1`) onto the integer range 1-10:
the minimum survivor gets rank 1, the maximum gets rank 10, every rank is
within [1,10]; and when all surviving scores are equal, every item gets
the midpoint rank 5 (the integer midpoint of 1..10). -/
theorem C7_rank_normalizer_linear {l : List Candidate} (hne : l ≠ []) :
    ((∀ a ∈ l, ∀ b ∈ l, a.score = b.score) →
      ∀ c ∈ normalize_rank_1_10 l, c.rank = some 5) ∧
    (listMin (l.map Candidate.score) ≠ listMax (l.map Candidate.score) →
      ∀ c ∈ normalize_rank_1_10 l,
        c.rank = some (pyInt (((c.score - listMin (l.map Candidate.score)) /
            (listMax (l.map Candidate.score) - listMin (l.map Candidate.score))) * 9) + 1) ∧
        (c.score = listMin (l.map Candidate.score) → c.rank = some 1) ∧
        (c.score = listMax (l.map Candidate.score) → c.rank = some 10) ∧
        ∃ rc, c.rank = some rc ∧ 1 ≤ rc ∧ rc ≤ 10) := by
  have hmapne : l.map Candidate.score ≠ [] := by simpa using hne
  constructor
  · intro hall c hc
    rcases mem_normalize_rank hc with ⟨r, hr, rfl⟩
    have hmin : listMin (l.map Candidate.score) = r.score :=
      listMin_eq_of_const hmapne (fun x hx => by
        rcases List.mem_map.1 hx with ⟨a, ha, rfl⟩
        exact hall a ha r hr)
    have hmax : listMax (l.map Candidate.score) = r.score :=
      listMax_eq_of_const hmapne (fun x hx => by
        rcases List.mem_map.1 hx with ⟨a, ha, rfl⟩
        exact hall a ha r hr)
    show some (rankFor (listMin (l.map Candidate.score))
      (listMax (l.map Candidate.score)) r.score) = some 5
    rw [hmin, hmax]
    unfold rankFor
    rw [if_pos rfl]
  · intro hlt c hc
    rcases mem_normalize_rank hc with ⟨r, hr, rfl⟩
    have hmm : listMin (l.map Candidate.score) ≤ listMax (l.map Candidate.score) :=
      listMin_le_listMax hmapne
    have hlt' : listMin (l.map Candidate.score) < listMax (l.map Candidate.score) :=
      lt_of_le_of_ne hmm hlt
    have h1 : listMin (l.map Candidate.score) ≤ r.score :=
      listMin_le_of_mem (List.mem_map_of_mem Candidate.score hr)
    have h2 : r.score ≤ listMax (l.map Candidate.score) :=
      le_listMax_of_mem (List.mem_map_of_mem Candidate.score hr)
    refine ⟨?_, ?_, ?_, ?_⟩
    · show some (rankFor _ _ r.score) = _
      unfold rankFor
      rw [if_neg (fun hc' => hlt hc'.symm)]
    · intro hmin
      show some (rankFor _ _ r.score) = some 1
      have : r.score = listMin (l.map Candidate.score) := hmin
      rw [this, rankFor_at_min hlt']
    · intro hmax
      show some (rankFor _ _ r.score) = some 10
      have : r.score = listMax (l.map Candidate.score) := hmax
      rw [this, rankFor_at_max hlt']
    · exact ⟨_, rfl, (rankFor_bounds h1 h2).1, (rankFor_bounds h1 h2).2⟩

/-- Witness for C7: a two-candidate list with distinct scores (endpoint
case) and a two-candidate list with equal scores (midpoint case). -/
theorem C7_rank_normalizer_linear_witness :
    ([candA, candB] : List Candidate) ≠ [] ∧
    listMin ([candA, candB].map Candidate.score) ≠
      listMax ([candA, candB].map Candidate.score) ∧
    (∀ c ∈ normalize_rank_1_10 [candA, candB],
      c.rank = some (pyInt (((c.score - listMin ([candA, candB].map Candidate.score)) /
          (listMax ([candA, candB].map Candidate.score)
            - listMin ([candA, candB].map Candidate.score))) * 9) + 1) ∧
      (c.score = listMin ([candA, candB].map Candidate.score) → c.rank = some 1) ∧
      (c.score = listMax ([candA, candB].map Candidate.score) → c.rank = some 10) ∧
      ∃ rc, c.rank = some rc ∧ 1 ≤ rc ∧ rc ≤ 10) ∧
    ([candA, candA] : List Candidate) ≠ [] ∧
    (∀ a ∈ ([candA, candA] : List Candidate), ∀ b ∈ ([candA, candA] : List Candidate),
      a.score = b.score) ∧
    (∀ c ∈ normalize_rank_1_10 [candA, candA], c.rank = some 5) ∧
    (normalize_rank_1_10 [candA, candA]).map Candidate.rank = [some 5, some 5] := by
  have hne1 : ([candA, candB] : List Candidate) ≠ [] := by decide
  have hne2 : listMin ([candA, candB].map Candidate.score) ≠
      listMax ([candA, candB].map Candidate.score) := by decide
  have hne3 : ([candA, candA] : List Candidate) ≠ [] := by decide
  have hall : ∀ a ∈ ([candA, candA] : List Candidate),
      ∀ b ∈ ([candA, candA] : List Candidate), a.score = b.score := by decide
  exact ⟨hne1, hne2, (C7_rank_normalizer_linear hne1).2 hne2, hne3, hall,
    (C7_rank_normalizer_linear hne3).1 hall, by decide⟩

theorem fallback_get_aux {l : List String} {i : Nat} (h : i < l.length) :
    l.get? i = some (l.getD i "") := by
  induction l generalizing i with
  | nil => cases h
  | cons x xs ih =>
    cases i with
    | zero => rfl
    | succ n => exact ih (Nat.lt_of_succ_lt_succ h)

/-- C8 counterexample: in `CourseRecommenderPipeline`'s keyword fallback
(embedding model unavailable), the returned item's score is the constant
0.5 even though 2 of the query's tokens occur in the item's combined
text — the degraded score is not the token count, refuting the claim as
stated for the pipeline sources it cites. -/
theorem C8_constant_half_score_counterexample :
    (recommend [coursePT] [] false (fun _ _ => []) reqPlain "python tools" false).map
      (fun o => o.results.map Candidate.score) = .ok [mkRat 1 2] ∧
    keyword_score "python tools" (format_course_text coursePT) = 2 ∧
    (mkRat 1 2 : ℚ) ≠ 2 := by
  exact ⟨by rfl, by decide, by decide⟩

/-- C8 (amended): when the embedding model is unavailable,
`CourseRecommenderPipeline` gates each course through the same
`check_gating` (with dummy score 1.0 and threshold 0.0) and every
returned item carries the constant score 0.5 with a non-empty
matched-keyword list, fed to the same rank normalization; the token-count
degraded scoring (score = number of query tokens occurring as substrings
of the item's combined text) is the one implemented in
`CourseRecommender.recommend`'s fallback branch. -/
theorem C8_fallback_amended {courses : List Course} {hits : List (Int × ℚ)}
    {rerank : String → List String → List ℚ} {req : Request} {nq : String}
    {isAr : Bool} {out : RecommendOutput}
    (hrr : req.enableReranking = false)
    (hout : recommend courses hits false rerank req nq isAr = .ok out) :
    (∀ c ∈ out.results, c.score = mkRat 1 2 ∧ c.matchedKeywords ≠ []) ∧
    (∀ (texts : List String) (q : String) (k : Nat),
      ∀ p ∈ courseRecommenderFallback texts q k,
        ∃ t, texts.get? p.1 = some t ∧ p.2.1 = (keyword_score q t : ℚ) ∧ 0 < p.2.1) := by
  constructor
  · unfold recommend at hout
    cases hfm : firstMissingCritical courses nq with
    | some kw' =>
      rw [hfm] at hout
      injection hout with hout
      subst hout
      intro c hc
      cases hc
    | none =>
      rw [hfm] at hout
      dsimp only at hout
      simp only [Bool.false_eq_true, if_false, hrr, Bool.false_and] at hout
      split at hout
      · cases hout
      · injection hout with hout
        subst hout
        intro c hc
        dsimp only at hc
        rcases mem_normalize_rank hc with ⟨r, hr, rfl⟩
        rcases mem_fallbackCandidates (List.mem_of_mem_take hr) with
          ⟨course, _, hm, hs, _, _, _⟩
        exact ⟨hs, hm⟩
  · intro texts q k p hp
    unfold courseRecommenderFallback at hp
    dsimp only at hp
    rcases List.mem_map.1 hp with ⟨pr, hpr, rfl⟩
    have hpr2 : pr ∈ (List.range texts.length).map
        (fun i => (i, (keyword_score q (texts.getD i "") : ℚ))) ∧
        decide (0 < pr.2) = true := by
      have := List.mem_of_mem_take hpr
      rw [mem_sortDescBy] at this
      exact List.mem_filter.1 this
    rcases List.mem_map.1 hpr2.1 with ⟨i, hi, rfl⟩
    have hilt : i < texts.length := List.mem_range.1 hi
    exact ⟨texts.getD i "", fallback_get_aux hilt, rfl, of_decide_eq_true hpr2.2⟩

/-- Witness for the amended C8 on a one-course catalog in fallback
mode. -/
theorem C8_fallback_amended_witness :
    reqPlain.enableReranking = false ∧
    recommend [coursePT] [] false (fun _ _ => []) reqPlain "python tools" false = .ok outC8 ∧
    (∀ c ∈ outC8.results, c.score = mkRat 1 2 ∧ c.matchedKeywords ≠ []) ∧
    ((0, (2:ℚ), (10:ℤ)) ∈
      courseRecommenderFallback [format_course_text coursePT] "python tools" 30) ∧
    (∃ t, [format_course_text coursePT].get? (0, (2:ℚ), (10:ℤ)).1 = some t ∧
      (0, (2:ℚ), (10:ℤ)).2.1 = (keyword_score "python tools" t : ℚ) ∧
      0 < (0, (2:ℚ), (10:ℤ)).2.1) := by
  have h1 : reqPlain.enableReranking = false := by rfl
  have h2 : recommend [coursePT] [] false (fun _ _ => []) reqPlain "python tools" false
      = .ok outC8 := by rfl
  have hm : (0, (2:ℚ), (10:ℤ)) ∈
      courseRecommenderFallback [format_course_text coursePT] "python tools" 30 := by decide
  exact ⟨h1, h2, (C8_fallback_amended h1 h2).1, hm,
    (C8_fallback_amended h1 h2).2 [format_course_text coursePT] "python tools" 30 _ hm⟩

set_option maxRecDepth 100000 in
/-- C9 counterexample: with the reranker failed (zero scores, as
`EmbeddingService.rerank` returns on load failure), a reranking-enabled
request returns the same items in the same order but with every reranked
score replaced by 0.0 — not "identical in order and score" to the
reranking-disabled request, refuting the claim as stated. -/
theorem C9_failed_reranker_changes_scores :
    (recommend [courseA, courseB] [(0, mkRat 9 10), (1, mkRat 4 5)] true zeroRerank
        reqRerank "python" false).map (fun o => o.results.map Candidate.score)
      = .ok [0, 0] ∧
    (recommend [courseA, courseB] [(0, mkRat 9 10), (1, mkRat 4 5)] true zeroRerank
        reqPlain "python" false).map (fun o => o.results.map Candidate.score)
      = .ok [mkRat 9 10, mkRat 4 5] ∧
    ([0, 0] : List ℚ) ≠ [mkRat 9 10, mkRat 4 5] ∧
    (recommend [courseA, courseB] [(0, mkRat 9 10), (1, mkRat 4 5)] true zeroRerank
        reqRerank "python" false).map (fun o => o.results.map identOf)
      = (recommend [courseA, courseB] [(0, mkRat 9 10), (1, mkRat 4 5)] true zeroRerank
        reqPlain "python" false).map (fun o => o.results.map identOf) := by
  exact ⟨by rfl, by rfl, by decide, by rfl⟩

/-- C9 (amended): if the reranker fails to load (so `rerank` returns all
zeros), a reranking-enabled request completes exactly when the disabled
request does, with the same blocked reason, the same number of results and
the same candidates in the same order; but the scores of the (up to 20)
reranked candidates are zeroed rather than kept. -/
theorem C9_zero_rerank_preserves_order (courses : List Course) (hits : List (Int × ℚ))
    (canEncode : Bool) (rerank : String → List String → List ℚ) (req : Request)
    (nq : String) (isAr : Bool) :
    ((recommend courses hits canEncode zeroRerank
        { req with enableReranking := true } nq isAr).map
        (fun o => (o.results.map identOf, o.totalFound, o.blockedReason))
      = (recommend courses hits canEncode rerank
        { req with enableReranking := false } nq isAr).map
        (fun o => (o.results.map identOf, o.totalFound, o.blockedReason))) ∧
    (∀ cs : List Candidate, ∀ c ∈ (rerankStep (zeroRerank nq) cs).take 20, c.score = 0) := by
  refine ⟨?_, fun cs c hc => rerankStep_zero_take_20_score hc⟩
  unfold recommend
  cases hfm : firstMissingCritical courses nq with
  | some kw' => rfl
  | none =>
    dsimp only
    set cands := if canEncode then (gatherSemantic courses hits req.filters nq (isShortOf nq)
        (if isAr then SEMANTIC_THRESHOLD_ARABIC else SEMANTIC_THRESHOLD_GENERAL)).2
      else fallbackCandidates courses nq (isShortOf nq) with hcands
    by_cases herr : (decide (cands.length < 3) && !(isShortOf nq)) = true
    · rw [if_pos herr, if_pos herr]
    · rw [if_neg herr, if_neg herr]
      simp only [Bool.true_and, Bool.false_and, Bool.false_eq_true, if_false]
      by_cases h1n : decide (1 < cands.length) = true
      · rw [if_pos h1n]
        simp only [Except.map]
        congr 1
        refine Prod.ext ?_ (Prod.ext ?_ rfl)
        · show (normalize_rank_1_10 ((rerankStep (zeroRerank nq) cands).take req.topK)).map identOf
            = (normalize_rank_1_10 (cands.take req.topK)).map identOf
          rw [normalize_rank_map_identOf, normalize_rank_map_identOf]
          rw [List.map_take, List.map_take, rerankStep_zero_map_identOf]
        · show (normalize_rank_1_10 ((rerankStep (zeroRerank nq) cands).take req.topK)).length
            = (normalize_rank_1_10 (cands.take req.topK)).length
          rw [normalize_rank_length, normalize_rank_length]
          simp only [List.length_take, rerankStep_length]
      · rw [if_neg h1n]

/-- Witness for the amended C9 on a concrete two-course request. -/
theorem C9_zero_rerank_preserves_order_witness :
    (setRerankScore candA 0 ∈ (rerankStep (zeroRerank "python") [candA, candB]).take 20) ∧
    (setRerankScore candA 0).score = 0 ∧
    ((recommend [courseA, courseB] [(0, mkRat 9 10), (1, mkRat 4 5)] true zeroRerank
        { reqPlain with enableReranking := true } "python" false).map
        (fun o => (o.results.map identOf, o.totalFound, o.blockedReason))
      = (recommend [courseA, courseB] [(0, mkRat 9 10), (1, mkRat 4 5)] true
        (fun _ _ => []) { reqPlain with enableReranking := false } "python" false).map
        (fun o => (o.results.map identOf, o.totalFound, o.blockedReason))) := by
  have hm : setRerankScore candA 0 ∈
      (rerankStep (zeroRerank "python") [candA, candB]).take 20 := by decide
  exact ⟨hm,
    (C9_zero_rerank_preserves_order [courseA, courseB] [(0, mkRat 9 10), (1, mkRat 4 5)]
      true (fun _ _ => []) reqPlain "python" false).2 [candA, candB] _ hm,
    (C9_zero_rerank_preserves_order [courseA, courseB] [(0, mkRat 9 10), (1, mkRat 4 5)]
      true (fun _ _ => []) reqPlain "python" false).1⟩

end CourseRec
